import Mathlib

/-!
Verification of `src/app_launcher.rs` (RustRocket application launcher).

Strings are modelled as lists of characters (`Str`).  Pure functions of the
source (`parse_desktop_entry`, `search_applications`) are translated directly;
the effectful launcher (`launch_app`) is modelled by explicit event traces over
an environment describing the outcome of each external call; the session
controller (`AppLauncher`, `handle_input`, `launch_first_result`) is modelled
as a state-passing function returning the new state and the emitted effects.
-/

abbrev Str := List Char

/-- Embeds Rust `str::to_lowercase()` (per-character lowering; the claims only
use that the same lowering is applied to query and names). -/
def toLower (s : Str) : Str := s.map Char.toLower

/-- Embeds Rust `str::trim()`: remove whitespace from both ends. -/
def trim (s : Str) : Str :=
  ((s.dropWhile Char.isWhitespace).reverse.dropWhile Char.isWhitespace).reverse

/-- Fuel-indexed helper for `removeAll` (fuel ≥ length of the string makes the
fuel irrelevant; it only serves structural recursion). -/
def removeAllAux (pat : List Char) : Nat → List Char → List Char
  | _, [] => []
  | 0, s => s
  | fuel+1, c :: rest =>
    if pat <+: (c :: rest) ∧ pat ≠ [] then
      removeAllAux pat fuel (rest.drop (pat.length - 1))
    else c :: removeAllAux pat fuel rest

/-- Embeds Rust `str::replace(pat, "")`: one left-to-right pass removing every
(non-overlapping) occurrence of `pat`. -/
def removeAll (pat s : List Char) : List Char := removeAllAux pat s.length s

/-- The seven field-code placeholders of `parse_desktop_entry` (line 45),
in the order the source folds over them. -/
def placeholders : List (List Char) :=
  [['%','f'], ['%','u'], ['%','U'], ['%','F'], ['%','i'], ['%','c'], ['%','k']]

/-- Embeds lines 45-48 of the source: fold `replace(placeholder, "")` over the
seven placeholders, then trim. -/
def cleanExec (exec : Str) : Str :=
  trim (placeholders.foldl (fun acc ph => removeAll ph acc) exec)

def nameKey : Str := ['N','a','m','e','=']

def execKey : Str := ['E','x','e','c','=']

/-- Embeds the scanning loop of `parse_desktop_entry` (lines 32-43): walk the
lines, a `Name=` line overwrites the name field, otherwise an `Exec=` line
overwrites the exec field; stop as soon as both fields are set. -/
def scanLines : List Str → Option Str → Option Str → Option Str × Option Str
  | [], name, exec => (name, exec)
  | line :: rest, name, exec =>
    let st :=
      if nameKey <+: line then (some (trim (line.drop 5)), exec)
      else if execKey <+: line then (name, some (trim (line.drop 5)))
      else (name, exec)
    if st.1.isSome ∧ st.2.isSome then st
    else scanLines rest st.1 st.2

/-- Embeds `parse_desktop_entry` (lines 30-51) on the list of lines of the
file's content (`content.lines()`); `None` when either field is never found,
otherwise the name together with the placeholder-cleaned exec. -/
def parse_desktop_entry (content : List Str) : Option (Str × Str) :=
  match scanLines content none none with
  | (some name, some exec) => some (name, cleanExec exec)
  | _ => none

/-- Embeds the fused filter/dedup iterator of `search_applications`
(lines 57-65): keep entries whose lowercased name contains `q`, skipping an
entry whose (exact) name was already emitted (`seen` plays the `HashSet`). -/
def dedupMatches (q : Str) : List Str → List (Str × Str) → List (Str × Str)
  | _, [] => []
  | seen, (name, exec) :: rest =>
    if q <:+: toLower name then
      if name ∈ seen then dedupMatches q seen rest
      else (name, exec) :: dedupMatches q (name :: seen) rest
    else dedupMatches q seen rest

/-- Embeds `search_applications` (lines 53-68). -/
def search_applications (query : Str) (applications : List (Str × Str))
    (max_results : Nat) : List (Str × Str) :=
  (dedupMatches (toLower query) [] applications).take max_results

/-- External side effects performed by the launcher and the power actions. -/
inductive Effect
  | recordRecent (name : Str)
  | persistCache
  | resolveHome
  | spawnProcess (cmd : Str) (workdir : Str)
  | powerOff
  | restart
  | logout
deriving DecidableEq

/-- Outcomes of the external calls made during a launch attempt. -/
structure SysEnv where
  cachePersistOk : Bool
  homeDir : Option Str
  spawnOk : Bool
deriving DecidableEq

/-- Modelled from the spec: `crate::cache::update_cache` (the `cache` module is
not part of the provided source).  Per §4.6 of the spec, when recent-apps
tracking is enabled it records the name into the cache and persists it, and a
failure to update/persist is an error; when disabled it does nothing.  Returns
the emitted effects and whether the call succeeded. -/
def update_cache (env : SysEnv) (app_name : Str) (enable_recent_apps : Bool) :
    List Effect × Bool :=
  if enable_recent_apps then
    ([Effect.recordRecent app_name, Effect.persistCache], env.cachePersistOk)
  else ([], true)

/-- Embeds `launch_app` (lines 70-80): the `?` on `update_cache` propagates its
failure before anything else happens; then the home directory is resolved
(`ok_or` turns `None` into an error); only then is the command spawned. -/
def launch_app (env : SysEnv) (app_name : Str) (exec_cmd : Str)
    (enable_recent_apps : Bool) : List Effect × Bool :=
  let c := update_cache env app_name enable_recent_apps
  if c.2 = false then (c.1, false)
  else
    match env.homeDir with
    | none => (c.1 ++ [Effect.resolveHome], false)
    | some h => (c.1 ++ [Effect.resolveHome, Effect.spawnProcess exec_cmd h], env.spawnOk)

/-- The configuration options consumed by `app_launcher.rs`. -/
structure Config where
  enable_recent_apps : Bool
  enable_power_options : Bool
  max_search_results : Nat
deriving DecidableEq

/-- The state owned by `AppLauncher` (lines 82-88). -/
structure AppLauncher where
  query : Str
  applications : List (Str × Str)
  search_results : List (Str × Str)
  is_quit : Bool
  config : Config
deriving DecidableEq

/-- Embeds `AppLauncher::launch_first_result` (lines 174-184): launch the first
search result if any; on success set the quit flag, on failure (or with no
results) leave the state as it is.  Returns the new state and the effects of
the launch attempt. -/
def AppLauncher.launch_first_result (env : SysEnv) (s : AppLauncher) :
    AppLauncher × List Effect :=
  match s.search_results with
  | [] => (s, [])
  | (app_name, exec_cmd) :: _ =>
    let r := launch_app env app_name exec_cmd s.config.enable_recent_apps
    if r.2 then ({ s with is_quit := true }, r.1) else (s, r.1)

/-- Embeds `AppLauncher::handle_input` (lines 129-141).  The power branches are
guarded by `enable_power_options` exactly as the Rust match guards are; a
guard that fails falls through to the free-text branch. -/
def AppLauncher.handle_input (env : SysEnv) (s : AppLauncher) (input : Str) :
    AppLauncher × List Effect :=
  if input = ['E','S','C'] then ({ s with is_quit := true }, [])
  else if input = ['E','N','T','E','R'] then s.launch_first_result env
  else if input = ['P'] ∧ s.config.enable_power_options then (s, [Effect.powerOff])
  else if input = ['R'] ∧ s.config.enable_power_options then (s, [Effect.restart])
  else if input = ['L'] ∧ s.config.enable_power_options then (s, [Effect.logout])
  else
    ({ s with query := input,
              search_results :=
                search_applications input s.applications s.config.max_search_results }, [])

/-- Embeds the recent-apps seeding of `AppLauncher::default` (lines 98-110):
resolve each cached name, in order, to the first index entry with exactly that
name, skip unresolved names, truncate to `max_search_results`; empty when
recent-apps tracking is disabled. -/
def default_search_results (recent_apps : List Str) (applications : List (Str × Str))
    (config : Config) : List (Str × Str) :=
  if config.enable_recent_apps then
    (recent_apps.filterMap (fun app_name =>
        applications.find? (fun p => decide (p.1 = app_name)))).take config.max_search_results
  else []

/-! ### Concrete sample data (used to instantiate the theorems) -/

def demoIndex : List (Str × Str) :=
  [("Files".toList, "nautilus".toList), ("Firefox".toList, "firefox".toList),
   ("File Manager".toList, "pcmanfm".toList)]

def demoConfig : Config :=
  { enable_recent_apps := true, enable_power_options := false, max_search_results := 5 }

def demoEnv : SysEnv :=
  { cachePersistOk := true, homeDir := some "/home/user".toList, spawnOk := true }

def demoState : AppLauncher :=
  { query := [], applications := demoIndex, search_results := demoIndex,
    is_quit := false, config := demoConfig }

def demoRecent : List Str := ["Firefox".toList, "Ghost".toList, "Files".toList]

def demoRecentDup : List Str := ["Firefox".toList, "Firefox".toList]

/-! ### Properties of `removeAll` -/

lemma removeAllAux_nil (pat : List Char) (fuel : Nat) : removeAllAux pat fuel [] = [] := by
  cases fuel <;> rfl

lemma removeAllAux_fuel (pat : List Char) :
    ∀ (f₁ : Nat), ∀ (f₂ : Nat) (s : List Char), s.length ≤ f₁ → s.length ≤ f₂ →
      removeAllAux pat f₁ s = removeAllAux pat f₂ s := by
  intro f₁
  induction f₁ with
  | zero =>
    intro f₂ s hs₁ _
    have : s = [] := List.eq_nil_of_length_eq_zero (Nat.le_zero.mp hs₁)
    subst this
    rw [removeAllAux_nil, removeAllAux_nil]
  | succ n ih =>
    intro f₂ s hs₁ hs₂
    cases s with
    | nil => rw [removeAllAux_nil, removeAllAux_nil]
    | cons c rest =>
      cases f₂ with
      | zero => simp at hs₂
      | succ m =>
        simp only [removeAllAux]
        have hr₁ : rest.length ≤ n := by simpa using hs₁
        have hr₂ : rest.length ≤ m := by simpa using hs₂
        split
        · exact ih _ _ (le_trans (by simp [List.length_drop]) hr₁)
            (le_trans (by simp [List.length_drop]) hr₂)
        · rw [ih _ _ hr₁ hr₂]

lemma removeAll_nil (pat : List Char) : removeAll pat [] = [] := rfl

lemma removeAll_cons (pat : List Char) (c : Char) (rest : List Char) :
    removeAll pat (c :: rest) =
      if pat <+: (c :: rest) ∧ pat ≠ [] then removeAll pat (rest.drop (pat.length - 1))
      else c :: removeAll pat rest := by
  show removeAllAux pat (rest.length + 1) (c :: rest) = _
  simp only [removeAllAux]
  split
  · exact removeAllAux_fuel pat _ _ _ (by simp [List.length_drop]) le_rfl
  · rfl

/-- After a single removal pass for the two-character token `'%' :: [x]`
(`x ≠ '%'`), a two-character token `'%' :: [y]` cannot occur provided the
input had no two adjacent `'%'` and the token either is the one removed or
was already absent.  This is the key fact behind the placeholder-cleaning
guarantee (and its failure when `"%%"` occurs). -/
lemma removeAll_token_free (x : Char) :
    ∀ (n : Nat) (s : List Char), s.length ≤ n → ¬ (['%','%'] <:+: s) →
      ∀ y : Char, (y = x ∨ ¬ (['%',y] <:+: s)) → ¬ (['%',y] <:+: removeAll ['%',x] s) := by
  intro n
  induction n with
  | zero =>
    intro s hs _ y _
    have : s = [] := List.eq_nil_of_length_eq_zero (Nat.le_zero.mp hs)
    subst this
    rw [removeAll_nil]
    simp [List.infix_nil]
  | succ n ih =>
    intro s hs hd y hy
    cases s with
    | nil =>
      rw [removeAll_nil]
      simp [List.infix_nil]
    | cons c rest =>
      have hrest : rest.length ≤ n := by simpa using hs
      have hdrest : ¬ (['%','%'] <:+: rest) := fun h =>
        hd (h.trans (List.suffix_cons c rest).isInfix)
      rw [removeAll_cons]
      by_cases hp : (['%', x] : List Char) <+: (c :: rest)
      · rw [if_pos ⟨hp, by simp⟩]
        have hsub : (rest.drop (['%', x].length - 1)) <:+ (c :: rest) :=
          (List.drop_suffix _ rest).trans (List.suffix_cons c rest)
        refine ih _ (le_trans (by simp [List.length_drop]) hrest) ?_ y ?_
        · exact fun h => hd (h.trans hsub.isInfix)
        · cases hy with
          | inl h => exact Or.inl h
          | inr h => exact Or.inr fun h2 => h (h2.trans hsub.isInfix)
      · rw [if_neg (fun h => hp h.1)]
        intro hin
        rcases List.infix_cons_iff.mp hin with hpre | htail
        · rcases List.cons_prefix_cons.mp hpre with ⟨hc, hy1⟩
          cases rest with
          | nil =>
            rw [removeAll_nil] at hy1
            exact absurd (List.prefix_nil.mp hy1) (by simp)
          | cons d rest2 =>
            rw [removeAll_cons] at hy1
            by_cases hp2 : (['%', x] : List Char) <+: (d :: rest2)
            · have hd2 : '%' = d := (List.cons_prefix_cons.mp hp2).1
              refine hd (List.IsPrefix.isInfix ?_)
              exact List.cons_prefix_cons.mpr ⟨hc, List.cons_prefix_cons.mpr ⟨hd2, by simp⟩⟩
            · rw [if_neg (fun h => hp2 h.1)] at hy1
              have hyd : y = d := (List.cons_prefix_cons.mp hy1).1
              have hocc : (['%', y] : List Char) <+: (c :: d :: rest2) :=
                List.cons_prefix_cons.mpr ⟨hc, List.cons_prefix_cons.mpr ⟨hyd, by simp⟩⟩
              cases hy with
              | inl h => exact hp (h ▸ hocc)
              | inr h => exact h hocc.isInfix
        · refine ih rest hrest hdrest y ?_ htail
          cases hy with
          | inl h => exact Or.inl h
          | inr h => exact Or.inr fun h2 => h (h2.trans (List.suffix_cons c rest).isInfix)

/-- `trim` only removes characters: its result is a contiguous part of the
input. -/
lemma trim_isInfix (s : Str) : trim s <:+: s := by
  have h1 : s.dropWhile Char.isWhitespace <:+ s := List.dropWhile_suffix _
  have h2 : ((s.dropWhile Char.isWhitespace).reverse.dropWhile Char.isWhitespace) <:+
      (s.dropWhile Char.isWhitespace).reverse := List.dropWhile_suffix _
  have h3 : trim s <+: s.dropWhile Char.isWhitespace := by
    apply List.reverse_suffix.mp
    simpa [trim] using h2
  exact h3.isInfix.trans h1.isInfix

/-- The nested form of `cleanExec`. -/
lemma cleanExec_eq (v : Str) :
    cleanExec v = trim (removeAll ['%','k'] (removeAll ['%','c'] (removeAll ['%','i']
      (removeAll ['%','F'] (removeAll ['%','U'] (removeAll ['%','u']
        (removeAll ['%','f'] v))))))) := rfl

/-- For an exec value without two adjacent `'%'`, the cleaned command contains
none of the seven placeholders.  (Without that proviso this fails: removing a
token can splice a new one together, e.g. `"%%kk"` cleans to `"%k"`.) -/
lemma cleanExec_token_free (v : Str) (hv : ¬ (['%','%'] <:+: v)) :
    ∀ p ∈ placeholders, ¬ (p <:+: cleanExec v) := by
  have step : ∀ (x y : Char) (s : List Char), ¬ (['%','%'] <:+: s) →
      (y = x ∨ ¬ (['%',y] <:+: s)) → ¬ (['%',y] <:+: removeAll ['%',x] s) :=
    fun x y s h1 h2 => removeAll_token_free x s.length s le_rfl h1 y h2
  have d1 := step 'f' '%' _ hv (Or.inr hv)
  have tf1 := step 'f' 'f' _ hv (Or.inl rfl)
  have d2 := step 'u' '%' _ d1 (Or.inr d1)
  have tf2 := step 'u' 'f' _ d1 (Or.inr tf1)
  have tu2 := step 'u' 'u' _ d1 (Or.inl rfl)
  have d3 := step 'U' '%' _ d2 (Or.inr d2)
  have tf3 := step 'U' 'f' _ d2 (Or.inr tf2)
  have tu3 := step 'U' 'u' _ d2 (Or.inr tu2)
  have tU3 := step 'U' 'U' _ d2 (Or.inl rfl)
  have d4 := step 'F' '%' _ d3 (Or.inr d3)
  have tf4 := step 'F' 'f' _ d3 (Or.inr tf3)
  have tu4 := step 'F' 'u' _ d3 (Or.inr tu3)
  have tU4 := step 'F' 'U' _ d3 (Or.inr tU3)
  have tF4 := step 'F' 'F' _ d3 (Or.inl rfl)
  have d5 := step 'i' '%' _ d4 (Or.inr d4)
  have tf5 := step 'i' 'f' _ d4 (Or.inr tf4)
  have tu5 := step 'i' 'u' _ d4 (Or.inr tu4)
  have tU5 := step 'i' 'U' _ d4 (Or.inr tU4)
  have tF5 := step 'i' 'F' _ d4 (Or.inr tF4)
  have ti5 := step 'i' 'i' _ d4 (Or.inl rfl)
  have d6 := step 'c' '%' _ d5 (Or.inr d5)
  have tf6 := step 'c' 'f' _ d5 (Or.inr tf5)
  have tu6 := step 'c' 'u' _ d5 (Or.inr tu5)
  have tU6 := step 'c' 'U' _ d5 (Or.inr tU5)
  have tF6 := step 'c' 'F' _ d5 (Or.inr tF5)
  have ti6 := step 'c' 'i' _ d5 (Or.inr ti5)
  have tc6 := step 'c' 'c' _ d5 (Or.inl rfl)
  have tf7 := step 'k' 'f' _ d6 (Or.inr tf6)
  have tu7 := step 'k' 'u' _ d6 (Or.inr tu6)
  have tU7 := step 'k' 'U' _ d6 (Or.inr tU6)
  have tF7 := step 'k' 'F' _ d6 (Or.inr tF6)
  have ti7 := step 'k' 'i' _ d6 (Or.inr ti6)
  have tc7 := step 'k' 'c' _ d6 (Or.inr tc6)
  have tk7 := step 'k' 'k' _ d6 (Or.inl rfl)
  intro p hp
  have htr := trim_isInfix (removeAll ['%','k'] (removeAll ['%','c'] (removeAll ['%','i']
      (removeAll ['%','F'] (removeAll ['%','U'] (removeAll ['%','u']
        (removeAll ['%','f'] v)))))))
  rw [cleanExec_eq]
  simp only [placeholders, List.mem_cons, List.not_mem_nil, or_false] at hp
  rcases hp with h | h | h | h | h | h | h <;> subst h <;> intro hc
  · exact tf7 (hc.trans htr)
  · exact tu7 (hc.trans htr)
  · exact tU7 (hc.trans htr)
  · exact tF7 (hc.trans htr)
  · exact ti7 (hc.trans htr)
  · exact tc7 (hc.trans htr)
  · exact tk7 (hc.trans htr)

/-! ### Properties of `scanLines` / `parse_desktop_entry` -/

/-- A line cannot begin with both `Name=` and `Exec=`. -/
lemma keys_exclusive (l : Str) (h : nameKey <+: l) : ¬ (execKey <+: l) := by
  intro h2
  cases l with
  | nil => exact absurd (List.prefix_nil.mp h) (by simp [nameKey])
  | cons a l' =>
    have h1 := (List.cons_prefix_cons.mp h).1
    have h3 := (List.cons_prefix_cons.mp h2).1
    rw [← h1] at h3
    exact absurd h3 (by decide)

lemma scanLines_fst_isSome : ∀ (ls : List Str) (n e : Option Str),
    (scanLines ls n e).1.isSome =
      (n.isSome || ls.any fun l => decide (nameKey <+: l)) := by
  intro ls
  induction ls with
  | nil => intro n e; simp [scanLines]
  | cons l ls ih =>
    intro n e
    simp only [scanLines, List.any_cons]
    by_cases h1 : nameKey <+: l
    · simp only [if_pos h1]
      cases e with
      | some ev => simp [h1]
      | none => simp [h1, ih]
    · simp only [if_neg h1]
      by_cases h2 : execKey <+: l
      · simp only [if_pos h2]
        cases n with
        | some nv => simp [h1]
        | none => simp [h1, ih]
      · simp only [if_neg h2]
        cases n with
        | some nv =>
          cases e with
          | some ev => simp [h1]
          | none => simp [h1, ih]
        | none => simp [h1, ih]

lemma scanLines_snd_isSome : ∀ (ls : List Str) (n e : Option Str),
    (scanLines ls n e).2.isSome =
      (e.isSome || ls.any fun l => decide (execKey <+: l)) := by
  intro ls
  induction ls with
  | nil => intro n e; simp [scanLines]
  | cons l ls ih =>
    intro n e
    simp only [scanLines, List.any_cons]
    by_cases h1 : nameKey <+: l
    · have h1e : ¬ (execKey <+: l) := keys_exclusive l h1
      simp only [if_pos h1]
      cases e with
      | some ev => simp [h1e]
      | none => simp [h1e, ih]
    · simp only [if_neg h1]
      by_cases h2 : execKey <+: l
      · simp only [if_pos h2]
        cases n with
        | some nv => simp [h2]
        | none => simp [h2, ih]
      · simp only [if_neg h2]
        cases n with
        | some nv =>
          cases e with
          | some ev => simp [h2]
          | none => simp [h2, ih]
        | none => simp [h2, ih]

/-- Scanning lines that never begin with `Exec=` cannot finish the scan: it
only (possibly) reassigns the name accumulator. -/
lemma scanLines_append_no_exec : ∀ (ls : List Str), (∀ l ∈ ls, ¬ (execKey <+: l)) →
    ∀ (tl : List Str) (cur : Option Str), ∃ cur2 : Option Str,
      scanLines (ls ++ tl) cur none = scanLines tl cur2 none := by
  intro ls
  induction ls with
  | nil => intro _ tl cur; exact ⟨cur, rfl⟩
  | cons l ls ih =>
    intro h tl cur
    have hl : ¬ (execKey <+: l) := h l (List.mem_cons_self l ls)
    have hls : ∀ l' ∈ ls, ¬ (execKey <+: l') := fun l' hm => h l' (List.mem_cons_of_mem l hm)
    simp only [List.cons_append, scanLines]
    by_cases h1 : nameKey <+: l
    · simp only [if_pos h1, Option.isSome_some, Option.isSome_none]
      simpa using ih hls tl (some (trim (l.drop 5)))
    · simp only [if_neg h1, if_neg hl]
      simpa using ih hls tl cur

/-- Scanning lines that begin with neither key leaves both accumulators
untouched (when the exec accumulator is still empty). -/
lemma scanLines_append_neutral : ∀ (ls : List Str),
    (∀ l ∈ ls, ¬ (nameKey <+: l) ∧ ¬ (execKey <+: l)) →
    ∀ (tl : List Str) (cur : Option Str),
      scanLines (ls ++ tl) cur none = scanLines tl cur none := by
  intro ls
  induction ls with
  | nil => intro _ tl cur; rfl
  | cons l ls ih =>
    intro h tl cur
    have hl := h l (List.mem_cons_self l ls)
    have hls : ∀ l' ∈ ls, ¬ (nameKey <+: l') ∧ ¬ (execKey <+: l') :=
      fun l' hm => h l' (List.mem_cons_of_mem l hm)
    simp only [List.cons_append, scanLines, if_neg hl.1, if_neg hl.2]
    simpa using ih hls tl cur

/-- Any exec value produced by the scan is the trimmed tail of some `Exec=`
line of the input. -/
lemma scanLines_snd_origin : ∀ (ls : List Str) (n e : Option Str) (w : Str),
    (scanLines ls n e).2 = some w →
    e = some w ∨ ∃ l ∈ ls, (execKey <+: l) ∧ w = trim (l.drop 5) := by
  intro ls
  induction ls with
  | nil => intro n e w h; exact Or.inl h
  | cons l ls ih =>
    intro n e w h
    simp only [scanLines] at h
    by_cases h1 : nameKey <+: l
    · simp only [if_pos h1] at h
      cases e with
      | some ev =>
        simp only [Option.isSome_some, and_self, if_pos] at h
        exact Or.inl (by simpa using h)
      | none =>
        simp only [Option.isSome_none, Option.isSome_some, true_and, Bool.false_eq_true,
          if_neg, if_false] at h
        rcases ih _ _ _ h with h2 | ⟨l', hm, hp, hw⟩
        · exact absurd h2 (by simp)
        · exact Or.inr ⟨l', List.mem_cons_of_mem l hm, hp, hw⟩
    · simp only [if_neg h1] at h
      by_cases h2 : execKey <+: l
      · simp only [if_pos h2] at h
        cases n with
        | some nv =>
          simp only [Option.isSome_some, and_self, if_pos] at h
          exact Or.inr ⟨l, List.mem_cons_self l ls, h2, by simpa using h.symm⟩
        | none =>
          simp only [Option.isSome_none, Option.isSome_some, Bool.false_eq_true, false_and,
            if_neg, if_false] at h
          rcases ih _ _ _ h with h3 | ⟨l', hm, hp, hw⟩
          · exact Or.inr ⟨l, List.mem_cons_self l ls, h2, by simpa using h3.symm⟩
          · exact Or.inr ⟨l', List.mem_cons_of_mem l hm, hp, hw⟩
      · simp only [if_neg h2] at h
        cases n with
        | some nv =>
          cases e with
          | some ev =>
            simp only [Option.isSome_some, and_self, if_pos] at h
            exact Or.inl (by simpa using h)
          | none =>
            simp only [Option.isSome_none, Option.isSome_some, and_false, if_neg,
              if_false] at h
            rcases ih _ _ _ h with h3 | ⟨l', hm, hp, hw⟩
            · exact absurd h3 (by simp)
            · exact Or.inr ⟨l', List.mem_cons_of_mem l hm, hp, hw⟩
        | none =>
          simp only [Option.isSome_none, Bool.false_eq_true, false_and, if_neg,
            if_false] at h
          rcases ih _ _ _ h with h3 | ⟨l', hm, hp, hw⟩
          · exact Or.inl h3
          · exact Or.inr ⟨l', List.mem_cons_of_mem l hm, hp, hw⟩

/-! ### Properties of `search_applications` -/

lemma dedupMatches_mem_matches (q : Str) : ∀ (apps : List (Str × Str)) (seen : List Str)
    (p : Str × Str), p ∈ dedupMatches q seen apps → q <:+: toLower p.1 := by
  intro apps
  induction apps with
  | nil => intro seen p h; simp [dedupMatches] at h
  | cons a rest ih =>
    intro seen p h
    obtain ⟨n, e⟩ := a
    simp only [dedupMatches] at h
    by_cases h1 : q <:+: toLower n
    · rw [if_pos h1] at h
      by_cases h2 : n ∈ seen
      · exact ih _ p (by rwa [if_pos h2] at h)
      · rw [if_neg h2] at h
        rcases List.mem_cons.mp h with h3 | h3
        · subst h3; exact h1
        · exact ih _ p h3
    · exact ih _ p (by rwa [if_neg h1] at h)

lemma dedupMatches_sublist (q : Str) : ∀ (apps : List (Str × Str)) (seen : List Str),
    List.Sublist (dedupMatches q seen apps) apps := by
  intro apps
  induction apps with
  | nil => intro seen; simp [dedupMatches]
  | cons a rest ih =>
    intro seen
    obtain ⟨n, e⟩ := a
    simp only [dedupMatches]
    by_cases h1 : q <:+: toLower n
    · rw [if_pos h1]
      by_cases h2 : n ∈ seen
      · rw [if_pos h2]; exact (ih seen).cons (n, e)
      · rw [if_neg h2]; exact (ih (n :: seen)).cons₂ (n, e)
    · rw [if_neg h1]; exact (ih seen).cons (n, e)

lemma dedupMatches_first (q : Str) : ∀ (apps : List (Str × Str)) (seen : List Str)
    (p : Str × Str), p ∈ dedupMatches q seen apps →
      p.1 ∉ seen ∧ apps.find? (fun x => decide (x.1 = p.1)) = some p := by
  intro apps
  induction apps with
  | nil => intro seen p h; simp [dedupMatches] at h
  | cons a rest ih =>
    intro seen p h
    obtain ⟨n, e⟩ := a
    simp only [dedupMatches] at h
    by_cases h1 : q <:+: toLower n
    · rw [if_pos h1] at h
      by_cases h2 : n ∈ seen
      · rw [if_pos h2] at h
        obtain ⟨hns, hfind⟩ := ih _ p h
        have hne : n ≠ p.1 := fun hEq => hns (hEq ▸ h2)
        refine ⟨hns, ?_⟩
        rw [List.find?_cons_of_neg _ (by simpa using hne)]
        exact hfind
      · rw [if_neg h2] at h
        rcases List.mem_cons.mp h with h3 | h3
        · subst h3
          exact ⟨h2, by rw [List.find?_cons_of_pos _ (by simp)]⟩
        · obtain ⟨hns, hfind⟩ := ih _ p h3
          have hnp : p.1 ∉ seen := fun hc => hns (List.mem_cons_of_mem n hc)
          have hne : n ≠ p.1 := fun hEq => hns (hEq ▸ List.mem_cons_self n seen)
          refine ⟨hnp, ?_⟩
          rw [List.find?_cons_of_neg _ (by simpa using hne)]
          exact hfind
    · rw [if_neg h1] at h
      obtain ⟨hns, hfind⟩ := ih _ p h
      have hmatch : q <:+: toLower p.1 := dedupMatches_mem_matches q rest seen p h
      have hne : n ≠ p.1 := fun hEq => h1 (by rw [hEq]; exact hmatch)
      refine ⟨hns, ?_⟩
      rw [List.find?_cons_of_neg _ (by simpa using hne)]
      exact hfind

lemma dedupMatches_names_nodup (q : Str) : ∀ (apps : List (Str × Str)) (seen : List Str),
    ((dedupMatches q seen apps).map Prod.fst).Nodup := by
  intro apps
  induction apps with
  | nil => intro seen; simp [dedupMatches]
  | cons a rest ih =>
    intro seen
    obtain ⟨n, e⟩ := a
    simp only [dedupMatches]
    by_cases h1 : q <:+: toLower n
    · rw [if_pos h1]
      by_cases h2 : n ∈ seen
      · rw [if_pos h2]; exact ih seen
      · rw [if_neg h2]
        simp only [List.map_cons, List.nodup_cons]
        refine ⟨?_, ih (n :: seen)⟩
        intro hc
        rcases List.mem_map.mp hc with ⟨p, hp, hfst⟩
        have := (dedupMatches_first q rest (n :: seen) p hp).1
        exact this (hfst ▸ List.mem_cons_self n seen)
    · rw [if_neg h1]; exact ih seen

lemma search_names_nodup (q : Str) (apps : List (Str × Str)) (k : Nat) :
    ((search_applications q apps k).map Prod.fst).Nodup :=
  (dedupMatches_names_nodup (toLower q) apps []).sublist
    ((List.take_sublist k (dedupMatches (toLower q) [] apps)).map Prod.fst)

lemma countP_le_one_of_nodup : ∀ (l : List Str), l.Nodup →
    ∀ nm : Str, (l.countP fun a => decide (a = nm)) ≤ 1 := by
  intro l
  induction l with
  | nil => simp
  | cons a l ih =>
    intro h nm
    rw [List.countP_cons]
    rcases List.nodup_cons.mp h with ⟨ha, hl⟩
    by_cases hanm : a = nm
    · subst hanm
      have hz : (l.countP fun x => decide (x = a)) = 0 := by
        rw [List.countP_eq_zero]
        intro x hx
        simp only [decide_eq_true_eq]
        exact fun hc => ha (hc ▸ hx)
      simp [hz]
    · simp [hanm, ih hl nm]

/-! ### Single-step facts about `scanLines` -/

lemma scanLines_cons_name (l : Str) (rest : List Str) (n : Option Str)
    (h : nameKey <+: l) :
    scanLines (l :: rest) n none = scanLines rest (some (trim (l.drop 5))) none := by
  simp [scanLines, if_pos h]

lemma scanLines_cons_exec_done (l : Str) (rest : List Str) (nv : Str)
    (h : execKey <+: l) :
    scanLines (l :: rest) (some nv) none = (some nv, some (trim (l.drop 5))) := by
  have h2 : ¬ (nameKey <+: l) := fun hc => keys_exclusive l hc h
  simp [scanLines, if_neg h2, if_pos h]

/-- Shared kernel of claims C2 and C4: the parser produces an entry exactly
when both field lines occur. -/
lemma parse_isSome_char (content : List Str) :
    (parse_desktop_entry content).isSome = true ↔
      ((∃ l ∈ content, nameKey <+: l) ∧ (∃ l ∈ content, execKey <+: l)) := by
  have h1 := scanLines_fst_isSome content none none
  have h2 := scanLines_snd_isSome content none none
  have hname : (∃ l ∈ content, nameKey <+: l) ↔
      (content.any fun l => decide (nameKey <+: l)) = true := by simp
  have hexec : (∃ l ∈ content, execKey <+: l) ↔
      (content.any fun l => decide (execKey <+: l)) = true := by simp
  rw [hname, hexec]
  unfold parse_desktop_entry
  rcases hscan : scanLines content none none with ⟨a, b⟩
  rw [hscan] at h1 h2
  simp only [Option.isSome_none, Bool.false_or] at h1 h2
  cases a <;> cases b <;> simp_all

/-! ### Properties of the seeding (`AppLauncher::default`, lines 98-110) -/

lemma filterMap_find_names (apps : List (Str × Str)) : ∀ (recent : List Str),
    ((recent.filterMap fun a => apps.find? fun p => decide (p.1 = a)).map Prod.fst) =
      recent.filter fun a => (apps.find? fun p => decide (p.1 = a)).isSome := by
  intro recent
  induction recent with
  | nil => simp
  | cons r rest ih =>
    cases hf : apps.find? (fun p => decide (p.1 = r)) with
    | none => simp [List.filterMap_cons, hf, List.filter_cons, ih]
    | some p =>
      have hp1 : p.1 = r := by simpa using List.find?_some hf
      simp [List.filterMap_cons, hf, List.filter_cons, ih, hp1]

lemma seed_countP (apps : List (Str × Str)) (nm : Str) (p : Str × Str)
    (hfind : apps.find? (fun x => decide (x.1 = nm)) = some p) :
    ∀ recent : List Str,
      ((recent.filterMap fun a => apps.find? fun x => decide (x.1 = a)).countP
        fun x => decide (x = p)) = recent.countP fun a => decide (a = nm) := by
  have hp1 : p.1 = nm := by simpa using List.find?_some hfind
  intro recent
  induction recent with
  | nil => simp
  | cons r rest ih =>
    by_cases hr : r = nm
    · subst hr
      simp [List.filterMap_cons, hfind, List.countP_cons, ih]
    · cases hf2 : apps.find? (fun x => decide (x.1 = r)) with
      | none => simp [List.filterMap_cons, hf2, ih, List.countP_cons, hr]
      | some p2 =>
        have hp2 : p2.1 = r := by simpa using List.find?_some hf2
        have hne : p2 ≠ p := fun hc => hr (by rw [← hp2, hc, hp1])
        simp [List.filterMap_cons, hf2, ih, List.countP_cons, hr, hne]


/-! ### The claims -/

/-- Claim C1: every entry returned by `search_applications q I k` has a
lowercased name containing the lowercased `q` as a contiguous part (the empty
query matching everything); no two returned entries share a name; each
returned entry is the first index entry carrying its name (first in index
order wins); the results form a subsequence of the index (index order
preserved); and at most `k` entries are returned. -/
theorem search_applications_spec (q : Str) (apps : List (Str × Str)) (k : Nat) :
    (∀ p ∈ search_applications q apps k, toLower q <:+: toLower p.1) ∧
    ((search_applications q apps k).map Prod.fst).Nodup ∧
    List.Sublist (search_applications q apps k) apps ∧
    (∀ p ∈ search_applications q apps k,
      apps.find? (fun x => decide (x.1 = p.1)) = some p) ∧
    (search_applications q apps k).length ≤ k := by
  have hsub : List.Sublist (search_applications q apps k)
      (dedupMatches (toLower q) [] apps) := List.take_sublist _ _
  refine ⟨?_, ?_, ?_, ?_, ?_⟩
  · intro p hp
    exact dedupMatches_mem_matches (toLower q) apps [] p (hsub.subset hp)
  · exact search_names_nodup q apps k
  · exact hsub.trans (dedupMatches_sublist (toLower q) apps [])
  · intro p hp
    exact (dedupMatches_first (toLower q) apps [] p (hsub.subset hp)).2
  · exact List.length_take_le k _

/-- Witness for C1 at the spec's own example: query `"file"` on the demo
index; `("Files","nautilus")` is among the results and the membership
hypotheses of the theorem are discharged there. -/
theorem search_applications_spec_witness :
    toLower "FILE".toList <:+: toLower "Files".toList ∧
    (search_applications "FILE".toList demoIndex 2).length ≤ 2 :=
  ⟨(search_applications_spec "FILE".toList demoIndex 2).1
      ("Files".toList, "nautilus".toList) (by decide),
   (search_applications_spec "FILE".toList demoIndex 2).2.2.2.2⟩

/-- Counterexample to claim C2: the descriptor `Name=\nExec=x` parses to an
indexed entry whose name is the empty string, so "both fields non-empty" does
not hold of indexed entries. -/
theorem parse_empty_name_counterexample :
    parse_desktop_entry ["Name=".toList, "Exec=x".toList] = some ([], "x".toList) := by
  decide

/-- Claim C2 as amended: an entry is produced exactly when the descriptor has
both a `Name=` line and an `Exec=` line — a parse that leaves either field
missing yields no entry — but the parsed field values themselves may be empty
strings. -/
theorem parse_some_iff_fields_present (content : List Str) :
    (parse_desktop_entry content).isSome = true ↔
      ((∃ l ∈ content, nameKey <+: l) ∧ (∃ l ∈ content, execKey <+: l)) :=
  parse_isSome_char content

/-- Witness for C2 (amended), instantiated on a two-line descriptor. -/
theorem parse_some_iff_fields_present_witness :
    (parse_desktop_entry ["Name=A".toList, "Exec=x".toList]).isSome = true :=
  (parse_some_iff_fields_present ["Name=A".toList, "Exec=x".toList]).mpr
    ⟨⟨"Name=A".toList, by decide, by decide⟩, ⟨"Exec=x".toList, by decide, by decide⟩⟩

/-- Counterexample to claim C3: with two `Name=` lines before the `Exec=`
line, the entry's name is taken from the second (`"B"`), not the first
(`"A"`): the first occurrence does not win. -/
theorem parse_first_name_counterexample :
    parse_desktop_entry ["Name=A".toList, "Name=B".toList, "Exec=X".toList] =
      some ("B".toList, "X".toList) ∧ ("B".toList : Str) ≠ "A".toList := by
  decide

/-- Claim C3 as amended: scanning still stops once both fields are found
(lines after the first `Exec=` line are ignored when a name was already seen),
but until that point a later `Name=` line overwrites an earlier one: when all
`Name=` lines precede the first `Exec=` line, the last of them (`nl` below)
determines the name. -/
theorem parse_last_name_before_exec (pre mid post : List Str) (nl el : Str)
    (hpre : ∀ l ∈ pre, ¬ (execKey <+: l))
    (hnl : nameKey <+: nl)
    (hmid : ∀ l ∈ mid, ¬ (nameKey <+: l) ∧ ¬ (execKey <+: l))
    (hel : execKey <+: el) :
    parse_desktop_entry (pre ++ nl :: (mid ++ el :: post)) =
      some (trim (nl.drop 5), cleanExec (trim (el.drop 5))) := by
  obtain ⟨cur2, hskip⟩ := scanLines_append_no_exec pre hpre (nl :: (mid ++ el :: post)) none
  unfold parse_desktop_entry
  rw [hskip, scanLines_cons_name nl _ cur2 hnl,
    scanLines_append_neutral mid hmid (el :: post) (some (trim (nl.drop 5))),
    scanLines_cons_exec_done el post _ hel]

/-- Witness for C3 (amended): `Name=A`, `Name=B`, `Exec=X`, then a trailing
`Name=C` that is ignored because scanning stopped. -/
theorem parse_last_name_before_exec_witness :
    parse_desktop_entry (["Name=A".toList] ++ "Name=B".toList ::
        ([] ++ "Exec=X".toList :: ["Name=C".toList])) =
      some (trim ("Name=B".toList.drop 5), cleanExec (trim ("Exec=X".toList.drop 5))) :=
  parse_last_name_before_exec ["Name=A".toList] [] ["Name=C".toList]
    "Name=B".toList "Exec=X".toList (by decide) (by decide) (by decide) (by decide)

/-- Counterexample to claim C4: in `Exec=%%kk` the removal of `%k` splices the
surrounding characters into a fresh `%k`, so the resulting command still
contains a placeholder token. -/
theorem parse_placeholder_counterexample :
    parse_desktop_entry ["Name=A".toList, "Exec=%%kk".toList] =
        some ("A".toList, "%k".toList) ∧
      ['%','k'] ∈ placeholders ∧ (['%','k'] <:+: "%k".toList) := by
  decide

/-- Claim C4 as amended: a descriptor with both a `Name=` and an `Exec=` line
parses to exactly one entry, and — provided no line contains two adjacent
`'%'` characters — its command contains no occurrence of any of the seven
placeholder tokens (the proviso is needed because the seven removals are
sequential single passes and can splice new tokens together, as in the
counterexample). -/
theorem parse_placeholder_free (content : List Str)
    (h1 : ∃ l ∈ content, nameKey <+: l) (h2 : ∃ l ∈ content, execKey <+: l)
    (h3 : ∀ l ∈ content, ¬ (['%','%'] <:+: l)) :
    ∃ nv cv, parse_desktop_entry content = some (nv, cv) ∧
      ∀ p ∈ placeholders, ¬ (p <:+: cv) := by
  have hfst : (scanLines content none none).1.isSome = true := by
    rw [scanLines_fst_isSome]
    simp only [Option.isSome_none, Bool.false_or, List.any_eq_true]
    rcases h1 with ⟨l, hm, hp⟩
    exact ⟨l, hm, by simpa using hp⟩
  have hsnd : (scanLines content none none).2.isSome = true := by
    rw [scanLines_snd_isSome]
    simp only [Option.isSome_none, Bool.false_or, List.any_eq_true]
    rcases h2 with ⟨l, hm, hp⟩
    exact ⟨l, hm, by simpa using hp⟩
  rcases Option.isSome_iff_exists.mp hfst with ⟨nv, hnv⟩
  rcases Option.isSome_iff_exists.mp hsnd with ⟨w, hw⟩
  have hscan : scanLines content none none = (some nv, some w) := by
    have : scanLines content none none =
        ((scanLines content none none).1, (scanLines content none none).2) := rfl
    rw [this, hnv, hw]
  refine ⟨nv, cleanExec w, ?_, ?_⟩
  · unfold parse_desktop_entry
    rw [hscan]
  · rcases scanLines_snd_origin content none none w (by rw [hscan]) with habs | ⟨l, hm, hp, hweq⟩
    · exact absurd habs (by simp)
    · have hwin : w <:+: l := by
        rw [hweq]
        exact (trim_isInfix _).trans (List.drop_suffix 5 l).isInfix
      have hwnd : ¬ (['%','%'] <:+: w) := fun hc => h3 l hm (hc.trans hwin)
      exact cleanExec_token_free w hwnd

/-- Witness for C4 (amended): `Exec=xterm %u` cleans to `xterm`, and the
command contains no `%u`. -/
theorem parse_placeholder_free_witness :
    parse_desktop_entry ["Name=A".toList, "Exec=xterm %u".toList] =
        some ("A".toList, "xterm".toList) ∧
      ¬ (['%','u'] <:+: "xterm".toList) := by
  obtain ⟨nv, cv, hp, hfree⟩ :=
    parse_placeholder_free ["Name=A".toList, "Exec=xterm %u".toList]
      ⟨"Name=A".toList, by decide, by decide⟩
      ⟨"Exec=xterm %u".toList, by decide, by decide⟩ (by decide)
  have hv : parse_desktop_entry ["Name=A".toList, "Exec=xterm %u".toList] =
      some ("A".toList, "xterm".toList) := by decide
  have heq : (nv, cv) = ("A".toList, "xterm".toList) :=
    Option.some.inj (hp.symm.trans hv)
  have hcv : cv = "xterm".toList := congrArg Prod.snd heq
  exact ⟨hv, hcv ▸ hfree ['%','u'] (by decide)⟩

/-- Claim C5: the launch side effects happen strictly in the order
cache-record/persist (when tracking is enabled), home resolution, spawn; a
cache failure is propagated and stops everything before home resolution, and
an unresolvable home stops everything before the spawn; a spawn is attempted
only when the cache step succeeded (or tracking is off) and a home directory
was resolved. -/
theorem launch_app_effect_order (env : SysEnv) (n c : Str) (enabled : Bool) :
    ((enabled = true ∧ env.cachePersistOk = false) →
      launch_app env n c enabled = ([Effect.recordRecent n, Effect.persistCache], false)) ∧
    ((enabled = true → env.cachePersistOk = true) → env.homeDir = none →
      launch_app env n c enabled =
        ((update_cache env n enabled).1 ++ [Effect.resolveHome], false)) ∧
    (∀ hd, (enabled = true → env.cachePersistOk = true) → env.homeDir = some hd →
      launch_app env n c enabled =
        ((update_cache env n enabled).1 ++
          [Effect.resolveHome, Effect.spawnProcess c hd], env.spawnOk)) ∧
    (∀ c2 h2, Effect.spawnProcess c2 h2 ∈ (launch_app env n c enabled).1 →
      ((enabled = true → env.cachePersistOk = true) ∧ env.homeDir ≠ none)) := by
  obtain ⟨cok, hd, sok⟩ := env
  refine ⟨?_, ?_, ?_, ?_⟩
  · rintro ⟨he, hc⟩
    subst he; subst hc
    simp [launch_app, update_cache]
  · intro hok hnone
    subst hnone
    cases enabled with
    | false => simp [launch_app, update_cache]
    | true =>
      have hc : cok = true := hok rfl
      subst hc
      simp [launch_app, update_cache]
  · intro hdv hok hsome
    subst hsome
    cases enabled with
    | false => simp [launch_app, update_cache]
    | true =>
      have hc : cok = true := hok rfl
      subst hc
      simp [launch_app, update_cache]
  · intro c2 h2 hmem
    cases enabled <;> cases cok <;> cases hd <;>
      simp [launch_app, update_cache] at hmem ⊢

/-- Witness for C5: a forced cache-persist failure yields exactly the cache
trace, no home resolution and no spawn. -/
theorem launch_app_effect_order_witness :
    launch_app
        { cachePersistOk := false, homeDir := some "/home/user".toList,
          spawnOk := true }
        "Files".toList "nautilus".toList true =
      ([Effect.recordRecent "Files".toList, Effect.persistCache], false) :=
  (launch_app_effect_order _ "Files".toList "nautilus".toList true).1 ⟨rfl, rfl⟩

/-- Claim C6: with a non-empty result list, `ENTER` attempts to launch the
first result; on success only the quit flag is set, on failure the whole state
(query, results, quit flag) is exactly unchanged; the emitted effects are
those of the launch attempt. -/
theorem enter_launches_first (env : SysEnv) (s : AppLauncher) (n c : Str)
    (rest : List (Str × Str)) (hres : s.search_results = (n, c) :: rest) :
    AppLauncher.handle_input env s ['E','N','T','E','R'] =
      (if (launch_app env n c s.config.enable_recent_apps).2 = true
        then { s with is_quit := true } else s,
       (launch_app env n c s.config.enable_recent_apps).1) := by
  unfold AppLauncher.handle_input
  rw [if_neg (by decide : ¬ ((['E','N','T','E','R'] : Str) = ['E','S','C'])),
    if_pos rfl]
  unfold AppLauncher.launch_first_result
  rw [hres]
  by_cases h : (launch_app env n c s.config.enable_recent_apps).2 = true <;> simp [h]

/-- Witness for C6 on the demo state, whose first result is
`("Files","nautilus")`. -/
theorem enter_launches_first_witness :
    AppLauncher.handle_input demoEnv demoState ['E','N','T','E','R'] =
      (if (launch_app demoEnv "Files".toList "nautilus".toList
            demoState.config.enable_recent_apps).2 = true
        then { demoState with is_quit := true } else demoState,
       (launch_app demoEnv "Files".toList "nautilus".toList
          demoState.config.enable_recent_apps).1) :=
  enter_launches_first demoEnv demoState "Files".toList "nautilus".toList
    [("Firefox".toList, "firefox".toList), ("File Manager".toList, "pcmanfm".toList)] rfl

/-- Claim C7: with an empty result list, `ENTER` performs no launch — no cache
update, no spawn, no effect at all — and leaves the state exactly unchanged. -/
theorem enter_empty_noop (env : SysEnv) (s : AppLauncher)
    (hres : s.search_results = []) :
    AppLauncher.handle_input env s ['E','N','T','E','R'] = (s, []) := by
  unfold AppLauncher.handle_input
  rw [if_neg (by decide : ¬ ((['E','N','T','E','R'] : Str) = ['E','S','C'])),
    if_pos rfl]
  unfold AppLauncher.launch_first_result
  rw [hres]

/-- Witness for C7 on the demo state with its results emptied. -/
theorem enter_empty_noop_witness :
    AppLauncher.handle_input demoEnv { demoState with search_results := [] }
        ['E','N','T','E','R'] =
      ({ demoState with search_results := [] }, []) :=
  enter_empty_noop demoEnv { demoState with search_results := [] } rfl

/-- Claim C8: when recent-apps tracking is enabled, seeding resolves each
persisted name, in order, to the first index entry with exactly that name,
skips names with no matching entry, and truncates to `max_search_results`:
the seeded names are exactly the resolvable recent names in persisted order
(truncated), each seeded entry being the first index entry of its name. -/
theorem seeding_spec (recent : List Str) (apps : List (Str × Str)) (cfg : Config)
    (hen : cfg.enable_recent_apps = true) :
    (default_search_results recent apps cfg).length ≤ cfg.max_search_results ∧
    (∀ p ∈ default_search_results recent apps cfg,
      apps.find? (fun x => decide (x.1 = p.1)) = some p) ∧
    (default_search_results recent apps cfg).map Prod.fst =
      (recent.filter fun nm => (apps.find? fun x => decide (x.1 = nm)).isSome).take
        cfg.max_search_results := by
  unfold default_search_results
  rw [hen]
  simp only [if_true]
  refine ⟨List.length_take_le _ _, ?_, ?_⟩
  · intro p hp
    have hp2 : p ∈ recent.filterMap fun a => apps.find? fun x => decide (x.1 = a) :=
      (List.take_sublist _ _).subset hp
    rcases List.mem_filterMap.mp hp2 with ⟨a, _, hfa⟩
    have hpa : p.1 = a := by simpa using List.find?_some hfa
    rw [hpa]
    exact hfa
  · rw [List.map_take, filterMap_find_names]

/-- Witness for C8 on the spec's example shape: recents Firefox, Ghost, Files
with Ghost absent from the index. -/
theorem seeding_spec_witness :
    (default_search_results demoRecent demoIndex demoConfig).length ≤
        demoConfig.max_search_results ∧
    (default_search_results demoRecent demoIndex demoConfig).map Prod.fst =
      (demoRecent.filter fun nm =>
        (demoIndex.find? fun x => decide (x.1 = nm)).isSome).take
          demoConfig.max_search_results :=
  ⟨(seeding_spec demoRecent demoIndex demoConfig rfl).1,
   (seeding_spec demoRecent demoIndex demoConfig rfl).2.2⟩

/-- Claim C9: with power options disabled, the tokens `P`, `R`, `L` are not
ignored: each falls through to the free-text branch, replacing the query with
that letter and recomputing the results, with no effect emitted. -/
theorem power_tokens_fall_through (env : SysEnv) (s : AppLauncher)
    (hp : s.config.enable_power_options = false) :
    (AppLauncher.handle_input env s ['P'] =
      ({ s with
          query := ['P'],
          search_results :=
            search_applications ['P'] s.applications s.config.max_search_results }, [])) ∧
    (AppLauncher.handle_input env s ['R'] =
      ({ s with
          query := ['R'],
          search_results :=
            search_applications ['R'] s.applications s.config.max_search_results }, [])) ∧
    (AppLauncher.handle_input env s ['L'] =
      ({ s with
          query := ['L'],
          search_results :=
            search_applications ['L'] s.applications s.config.max_search_results }, [])) := by
  refine ⟨?_, ?_, ?_⟩ <;>
    · unfold AppLauncher.handle_input
      rw [if_neg (by decide), if_neg (by decide),
        if_neg (fun hc => by rw [hp] at hc; exact absurd hc.2 (by simp)),
        if_neg (fun hc => by rw [hp] at hc; exact absurd hc.2 (by simp)),
        if_neg (fun hc => by rw [hp] at hc; exact absurd hc.2 (by simp))]

/-- Witness for C9: the demo configuration has power options disabled. -/
theorem power_tokens_fall_through_witness :
    AppLauncher.handle_input demoEnv demoState ['P'] =
      ({ demoState with
          query := ['P'],
          search_results := search_applications ['P'] demoState.applications
            demoState.config.max_search_results }, []) :=
  (power_tokens_fall_through demoEnv demoState rfl).1

/-- Claim C10: seeding does not de-duplicate: when a name occurs several times
in the recent list and resolves to an index entry `p`, the seeded results
contain `p` once per occurrence (here stated without truncation interference:
the recent list fits within `max_search_results`) — unlike search, whose
result names never repeat. -/
theorem seeding_no_dedup (recent : List Str) (apps : List (Str × Str)) (cfg : Config)
    (nm : Str) (p : Str × Str)
    (hen : cfg.enable_recent_apps = true)
    (hfind : apps.find? (fun x => decide (x.1 = nm)) = some p)
    (hlen : recent.length ≤ cfg.max_search_results) :
    ((default_search_results recent apps cfg).countP fun x => decide (x = p)) =
      (recent.countP fun a => decide (a = nm)) ∧
    ∀ (q : Str) (k : Nat),
      (((search_applications q apps k).map Prod.fst).countP
        fun a => decide (a = nm)) ≤ 1 := by
  constructor
  · unfold default_search_results
    rw [hen]
    simp only [if_true]
    rw [List.take_of_length_le (le_trans (List.length_filterMap_le _ _) hlen)]
    exact seed_countP apps nm p hfind recent
  · intro q k
    exact countP_le_one_of_nodup _ (search_names_nodup q apps k) nm

/-- Witness for C10: the name Firefox occurs twice in the recent list and its
entry is seeded twice. -/
theorem seeding_no_dedup_witness :
    ((default_search_results demoRecentDup demoIndex demoConfig).countP
      fun x => decide (x = ("Firefox".toList, "firefox".toList))) =
      (demoRecentDup.countP fun a => decide (a = "Firefox".toList)) :=
  (seeding_no_dedup demoRecentDup demoIndex demoConfig "Firefox".toList
    ("Firefox".toList, "firefox".toList) rfl (by decide) (by decide)).1
